import Mathlib

/-!
# Verification of the poly-commitment `commitment` module

Shallow embedding of `poly-commitment/src/commitment.rs`: the `PolyComm`
commitment value and its arithmetic, `shift_scalar`, the challenge
polynomial `b_poly` / `b_poly_coefficients`, and the batch combination
engine (`combined_inner_product`, `combine_commitments`,
`combine_evaluations`).

The scalar field of the curve is modelled by an arbitrary field `F`; the
curve group by an arbitrary additive commutative group `G`, a module over
`F` where scalar multiplication is needed.  Rust `Vec` becomes `List`;
a Rust indexing operation that can panic becomes an `Option`-valued
access, so a function that can panic returns `Option _` and a panic is
`none`.
-/

namespace Commitment

/-- Rust `PolyComm<C>`: a polynomial commitment, an ordered sequence of
"chunks" (`pub elems: Vec<C>`). -/
structure PolyComm (C : Type) where
  elems : List C
deriving DecidableEq, Repr

namespace PolyComm

/-- Rust `PolyComm::new`. -/
def new {C : Type} (elems : List C) : PolyComm C := ⟨elems⟩

/-- Rust `PolyComm::len`. -/
def len {C : Type} (c : PolyComm C) : Nat := c.elems.length

/-- Rust `impl Add for &PolyComm`: index-wise group addition; for
`i < max n1 n2` the chunk is `self[i] + other[i]` when both sides have
chunk `i`, otherwise the chunk of the longer side passes through.
The `getD` accesses are guarded by the same bounds the Rust code
establishes, so the default is never consulted. -/
def add {G : Type} [AddCommGroup G] (self other : PolyComm G) : PolyComm G :=
  ⟨(List.range (max self.elems.length other.elems.length)).map fun i =>
    if i < self.elems.length ∧ i < other.elems.length then
      self.elems.getD i 0 + other.elems.getD i 0
    else if i < self.elems.length then
      self.elems.getD i 0
    else
      other.elems.getD i 0⟩

/-- Rust `impl Sub for &PolyComm`: index-wise group subtraction with the same
pass-through rule for the longer commitment. -/
def sub {G : Type} [AddCommGroup G] (self other : PolyComm G) : PolyComm G :=
  ⟨(List.range (max self.elems.length other.elems.length)).map fun i =>
    if i < self.elems.length ∧ i < other.elems.length then
      self.elems.getD i 0 - other.elems.getD i 0
    else if i < self.elems.length then
      self.elems.getD i 0
    else
      other.elems.getD i 0⟩

end PolyComm

/-- Rust `shift_scalar`.  The scalar field is `F`; `n1` is the scalar field's
modulus and `n2` the base field's modulus reinterpreted as an integer
(the two `BigInt` values the Rust code compares), and `nbits` is
`MODULUS_BIT_SIZE` of the scalar field.  `two_pow = 2^nbits` computed in
`F`; if `n1 < n2` the result is `(x - (two_pow + 1)) / 2`, otherwise
`x - two_pow`. -/
def shift_scalar {F : Type} [Field F] (n1 n2 : Nat) (nbits : Nat) (x : F) : F :=
  let two_pow : F := (2 : F) ^ nbits
  if n1 < n2 then (x - (two_pow + 1)) / 2 else x - two_pow

/-- The external arkworks call `C::Group::msm_bigint(points, scalars)`:
the multi-scalar multiplication `Σᵢ scalarsᵢ • pointsᵢ` over the pairs
present in both lists. -/
def msm {G F : Type} [Field F] [AddCommGroup G] [Module F G]
    (points : List G) (scalars : List F) : G :=
  ((points.zip scalars).map fun pr => pr.2 • pr.1).sum

/-- Rust `PolyComm::multi_scalar_mul(com, elm)`.  The `assert_eq!` on the
lengths is modelled by returning `none` (a panic) when they differ.  If
both inputs are empty the result is the single-chunk commitment to the
identity point.  Otherwise, for every chunk index below the maximal
chunk count, the pairs whose commitment has that chunk are collected
(`filterMap`, mirroring the Rust `filter_map` over `com.elems.get`) and
fed to the MSM. -/
def PolyComm.multi_scalar_mul {G F : Type} [Field F] [AddCommGroup G] [Module F G]
    (com : List (PolyComm G)) (elm : List F) : Option (PolyComm G) :=
  if com.length = elm.length then
    if com.isEmpty || elm.isEmpty then
      some (PolyComm.new [0])
    else
      let elems_size := ((com.map fun c => c.elems.length).max?).getD 0
      some (PolyComm.new ((List.range elems_size).map fun chunk =>
        let pairs := (com.zip elm).filterMap fun ce =>
          (ce.1.elems[chunk]?).map fun pt => (pt, ce.2)
        msm (pairs.map Prod.fst) (pairs.map Prod.snd)))
  else none

/-- Rust `product(xs)`: the running product of a sequence of field
elements, starting from `1`. -/
def product {F : Type} [Field F] (xs : List F) : F :=
  xs.foldl (fun res x => res * x) 1

/-- The `pow_twos` vector built by `b_poly`: it starts as `vec![x]` and
each iteration `i in 1..k` pushes the square of the previous entry, so
for `k` challenges it holds `x, x², x⁴, …` (`max k 1` entries). -/
def pow_twos {F : Type} [Field F] (x : F) : Nat → List F
  | 0 => [x]
  | n + 1 => pow_twos x n ++ [(pow_twos x n).getD n 0 * (pow_twos x n).getD n 0]

/-- Rust `b_poly(chals, x)`: the product over `i < k` of
`1 + chals[i] * pow_twos[k - 1 - i]`. -/
def b_poly {F : Type} [Field F] (chals : List F) (x : F) : F :=
  let k := chals.length
  product ((List.range k).map fun i =>
    1 + chals.getD i 0 * (pow_twos x (k - 1)).getD (k - 1 - i) 0)

/-- One iteration of the `b_poly_coefficients` loop, at index `i`, on the
state `(s, k, pow)`: `k` increments and `pow` doubles exactly when
`i == pow`, then `s[i] = s[i - pow/2] * chals[rounds - 1 - (k - 1)]`. -/
def bpc_step {F : Type} [Field F] (chals : List F) (rounds : Nat)
    (st : List F × Nat × Nat) (i : Nat) : List F × Nat × Nat :=
  let k := st.2.1 + (if i = st.2.2 then 1 else 0)
  let pow := st.2.2 <<< (if i = st.2.2 then 1 else 0)
  (st.1.set i (st.1.getD (i - pow / 2) 0 * chals.getD (rounds - 1 - (k - 1)) 0), k, pow)

/-- Rust `b_poly_coefficients(chals)`: starting from the all-ones vector
of length `2^rounds` and state `k = 0, pow = 1`, runs `bpc_step` for
`i in 1..2^rounds`. -/
def b_poly_coefficients {F : Type} [Field F] (chals : List F) : List F :=
  let rounds := chals.length
  let s_length := 1 <<< rounds
  ((List.range' 1 (s_length - 1)).foldl (bpc_step chals rounds)
    (List.replicate s_length 1, 0, 1)).1

/-- Modelled from the spec: `DensePolynomial::eval_polynomial` comes from
the external `o1_utils` crate (`ExtendedDensePolynomial`), which is not
part of the excerpt; section 4.5 of the spec defines it as Horner-style
evaluation of a coefficient row at a point, `Σ_j row[j] * x^j`. -/
def eval_polynomial {F : Type} [Field F] (coeffs : List F) (x : F) : F :=
  coeffs.foldr (fun c acc => c + x * acc) 0

/-- Processing of one `evals_tr` entry of `combined_inner_product`.
The Rust filter reads `evals_tr[0]` (a panic — `none` — on an empty
entry) and skips the entry when that first row is empty.  Otherwise the
entry is transposed (`evals_tr[j][i]` for `i` below the first row's
length, a panic when a row is too short) and each column updates the
state `(res, xi_i)` by `res += xi_i * eval_polynomial(column, evalscale);
xi_i *= polyscale`. -/
def cip_step {F : Type} [Field F] (polyscale evalscale : F) (st : F × F)
    (evals_tr : List (List F)) : Option (F × F) := do
  let row0 ← evals_tr.head?
  if row0.isEmpty then
    pure st
  else do
    let evals ← (List.range row0.length).mapM fun i =>
      evals_tr.mapM fun v => v[i]?
    pure (evals.foldl
      (fun st2 ev => (st2.1 + st2.2 * eval_polynomial ev evalscale, st2.2 * polyscale))
      st)

/-- Rust `combined_inner_product(polyscale, evalscale, polys)`: folds
`cip_step` over the entries starting from `res = 0, xi_i = 1` and
returns the final `res`; `none` models a panic. -/
def combined_inner_product {F : Type} [Field F] (polyscale evalscale : F)
    (polys : List (List (List F))) : Option F :=
  (polys.foldlM (cip_step polyscale evalscale) ((0 : F), (1 : F))).map Prod.fst

/-- Chunk-major rows (columns) of one point-major entry: column `i`
collects `v.getD i 0` over the rows `v`, as the Rust transpose does for
`i` below the first row's length. -/
def columns {F : Type} [Field F] (tr : List (List F)) : List (List F) :=
  (List.range (tr.headD []).length).map fun i => tr.map fun v => v.getD i 0

/-- The entries that `combined_inner_product` does not skip. -/
def includedEntries {F : Type} (polys : List (List (List F))) :
    List (List (List F)) :=
  polys.filter fun tr => !(tr.headD []).isEmpty

def includedColumns {F : Type} [Field F] (polys : List (List (List F))) : List (List F) :=
  (includedEntries polys).flatMap columns

/-- Rust `Evaluation<G>`: a commitment paired with its evaluation table
(outer index: evaluation point; inner index: degree chunk). -/
structure Evaluation (G F : Type) where
  commitment : PolyComm G
  evaluations : List (List F)
deriving DecidableEq, Repr

/-- The evaluations whose commitment is non-empty: both
`combine_commitments` and `combine_evaluations` iterate over exactly
these. -/
def included {G F : Type} (evaluations : List (Evaluation G F)) : List (Evaluation G F) :=
  evaluations.filter fun x => !x.commitment.elems.isEmpty

/-- The body of the inner `combine_commitments` loop over `comm_ch`:
push `rand_base * xi_i` onto `scalars`, push the chunk onto `points`
and advance `xi_i` by one multiplication by `polyscale`; the state is
`(scalars, points, xi_i)`. -/
def cc_chunk_step {G F : Type} [Field F] (polyscale rand_base : F)
    (st2 : List F × List G × F) (comm_ch : G) : List F × List G × F :=
  (st2.1 ++ [rand_base * st2.2.2], st2.2.1 ++ [comm_ch], st2.2.2 * polyscale)

/-- The body of the outer `combine_commitments` loop: fold the chunk
step over the chunks of one commitment. -/
def cc_entry_step {G F : Type} [Field F] (polyscale rand_base : F)
    (st : List F × List G × F) (e : Evaluation G F) : List F × List G × F :=
  e.commitment.elems.foldl (cc_chunk_step polyscale rand_base) st

/-- Rust `combine_commitments(evaluations, scalars, points, polyscale,
rand_base)`: starting from `xi_i = 1`, for every non-skipped evaluation
and every chunk of its commitment, pushes `rand_base * xi_i` onto
`scalars` and the chunk onto `points`, then advances `xi_i` by one
multiplication by `polyscale`.  The state is `(scalars, points, xi_i)`. -/
def combine_commitments {G F : Type} [Field F] (evaluations : List (Evaluation G F))
    (scalars : List F) (points : List G) (polyscale rand_base : F) :
    List F × List G :=
  let final := (included evaluations).foldl (cc_entry_step polyscale rand_base)
    (scalars, points, (1 : F))
  (final.1, final.2.1)

/-- The inner loop of `combine_evaluations` over `eval_pt_idx`: for a
fixed chunk index and current power `xi`, performs
`acc[pt] += table[pt][chunk_idx] * xi` for every `pt` below the length
of the current table; an out-of-bounds access (`acc` shorter than the
table, or a row shorter than the chunk index) is a panic (`none`). -/
def ce_point_step {F : Type} [Field F] (xi : F) (chunk_idx : Nat)
    (table : List (List F)) (acc2 : List F) (pt : Nat) : Option (List F) := do
  let row ← table[pt]?
  let v ← row[chunk_idx]?
  if pt < acc2.length then
    some (acc2.set pt (acc2.getD pt 0 + v * xi))
  else
    none

def ce_point_loop {F : Type} [Field F] (xi : F) (chunk_idx : Nat)
    (table : List (List F)) (acc : List F) : Option (List F) :=
  (List.range table.length).foldlM (ce_point_step xi chunk_idx table) acc

/-- The per-entry loop of `combine_evaluations`: reads `table[0]` (a
panic on an empty table), then for each chunk index below the first
row's length runs `ce_point_loop` and advances `xi` by one
multiplication by `polyscale`. -/
def ce_chunk_step {F : Type} [Field F] (polyscale : F) (table : List (List F))
    (st2 : List F × F) (chunk_idx : Nat) : Option (List F × F) := do
  let acc2 ← ce_point_loop st2.2 chunk_idx table st2.1
  pure (acc2, st2.2 * polyscale)

def ce_chunk_loop {F : Type} [Field F] (polyscale : F) (table : List (List F))
    (st : List F × F) : Option (List F × F) := do
  let row0 ← table[0]?
  (List.range row0.length).foldlM (ce_chunk_step polyscale table) st

/-- The outer length of the first evaluation's table: the shape the
`combine_evaluations` accumulator is created with. -/
def numEvals {G F : Type} (evaluations : List (Evaluation G F)) : Nat :=
  match evaluations with
  | [] => 0
  | e :: _ => e.evaluations.length

/-- The body of the outer `combine_evaluations` loop: run the chunk loop
on one evaluation's table. -/
def ce_entry_step {G F : Type} [Field F] (polyscale : F) (st : List F × F)
    (e : Evaluation G F) : Option (List F × F) :=
  ce_chunk_loop polyscale e.evaluations st

/-- Rust `combine_evaluations(evaluations, polyscale)`: the accumulator
starts as the zero vector whose length is the outer length of the FIRST
evaluation's table (`0` when the list is empty), and `ce_chunk_loop`
runs over every evaluation whose commitment is non-empty. -/
def combine_evaluations {G F : Type} [Field F] (evaluations : List (Evaluation G F))
    (polyscale : F) : Option (List F) := do
  let num_evals := numEvals evaluations
  let st ← (included evaluations).foldlM (ce_entry_step polyscale)
    (List.replicate num_evals (0 : F), (1 : F))
  pure st.1

/-- All commitment chunks of the non-skipped evaluations, in processing
order: position `r` in this list is the chunk that
`combine_commitments` pairs with `rand_base * polyscale ^ r`. -/
def chunksFlat {G F : Type} (evaluations : List (Evaluation G F)) : List G :=
  (included evaluations).flatMap fun e => e.commitment.elems

/-- For a fixed evaluation-point index `pt`, the chunk values of the
non-skipped evaluations at that point, in processing order: position `r`
in this list is the value that `combine_evaluations` multiplies by
`polyscale ^ r`. -/
def colsFlat {G F : Type} (evaluations : List (Evaluation G F)) (pt : Nat) : List F :=
  (included evaluations).flatMap fun e => e.evaluations.getD pt []

/-- Reference coefficient vector of the challenge polynomial
`B(x) = Π_{i<k} (1 + chals[i]·x^(2^(k-1-i)))`, built by the tensor
recursion: the polynomial for `c :: rest` is
`(low half = polynomial of rest) + c · x^(2^|rest|) · (same)`. -/
def bPolyCoeffsSpec {F : Type} [Field F] : List F → List F
  | [] => [1]
  | c :: rest => bPolyCoeffsSpec rest ++ (bPolyCoeffsSpec rest).map fun a => c * a

end Commitment

namespace Commitment

/- ### Basic list-index lemmas used throughout -/

theorem list_ext_getD {G : Type} [AddCommGroup G] (xs ys : List G)
    (hlen : xs.length = ys.length)
    (h : ∀ i, i < xs.length → xs.getD i 0 = ys.getD i 0) : xs = ys := by
  apply List.ext_getElem hlen
  intro i h1 h2
  have := h i h1
  rwa [List.getD_eq_getElem?_getD, List.getD_eq_getElem?_getD,
    List.getElem?_eq_getElem h1, List.getElem?_eq_getElem h2] at this

/-- Characterisation of `PolyComm.add`: the result has the length of the
longer argument and its `i`-th chunk is the sum of the `i`-th chunks,
reading a missing chunk as the identity (`getD _ 0`). -/
theorem add_getD {G : Type} [AddCommGroup G] (a b : PolyComm G) (i : Nat) :
    (a.add b).elems.getD i 0 = a.elems.getD i 0 + b.elems.getD i 0 := by
  unfold PolyComm.add
  rcases lt_or_ge i (max a.elems.length b.elems.length) with hi | hi
  · rw [List.getD_eq_getElem?_getD, List.getElem?_map,
      List.getElem?_range hi]
    simp only [Option.map_some', Option.getD_some]
    rcases lt_or_ge i a.elems.length with ha | ha
    · rcases lt_or_ge i b.elems.length with hb | hb
      · rw [if_pos ⟨ha, hb⟩]
      · rw [if_neg (by omega), if_pos ha,
          List.getD_eq_default _ _ hb, add_zero]
    · rcases lt_or_ge i b.elems.length with hb | hb
      · rw [if_neg (by omega), if_neg (by omega),
          List.getD_eq_default _ _ ha, zero_add]
      · omega
  · rw [List.getD_eq_default, List.getD_eq_default _ _ (by omega),
      List.getD_eq_default _ _ (by omega), add_zero]
    simpa using hi

/-- Characterisation of `PolyComm.sub` when `self` still has chunk `i`
(or both sides have run out): the chunk is the difference, reading a
missing chunk of `other` as the identity. -/
theorem sub_getD_left {G : Type} [AddCommGroup G] (a b : PolyComm G) (i : Nat)
    (hi : i < a.elems.length ∨ b.elems.length ≤ i) :
    (a.sub b).elems.getD i 0 = a.elems.getD i 0 - b.elems.getD i 0 := by
  unfold PolyComm.sub
  rcases lt_or_ge i (max a.elems.length b.elems.length) with hm | hm
  · rw [List.getD_eq_getElem?_getD, List.getElem?_map,
      List.getElem?_range hm]
    simp only [Option.map_some', Option.getD_some]
    rcases lt_or_ge i a.elems.length with ha | ha
    · rcases lt_or_ge i b.elems.length with hb | hb
      · rw [if_pos ⟨ha, hb⟩]
      · rw [if_neg (by omega), if_pos ha,
          List.getD_eq_default _ _ hb, sub_zero]
    · omega
  · rw [List.getD_eq_default, List.getD_eq_default _ _ (by omega),
      List.getD_eq_default _ _ (by omega), sub_zero]
    simpa using hm

/-- Characterisation of `PolyComm.sub` on the extra chunks of a longer
`other`: they pass through unchanged (NOT negated). -/
theorem sub_getD_right {G : Type} [AddCommGroup G] (a b : PolyComm G) (i : Nat)
    (hi : a.elems.length ≤ i) :
    (a.sub b).elems.getD i 0 = b.elems.getD i 0 := by
  unfold PolyComm.sub
  rcases lt_or_ge i (max a.elems.length b.elems.length) with hm | hm
  · rw [List.getD_eq_getElem?_getD, List.getElem?_map,
      List.getElem?_range hm]
    simp only [Option.map_some', Option.getD_some]
    rw [if_neg (by omega), if_neg (by omega)]
  · rw [List.getD_eq_default, List.getD_eq_default _ _ (by omega)]
    simpa using hm

theorem add_length {G : Type} [AddCommGroup G] (a b : PolyComm G) :
    (a.add b).elems.length = max a.elems.length b.elems.length := by
  simp [PolyComm.add]

theorem sub_length {G : Type} [AddCommGroup G] (a b : PolyComm G) :
    (a.sub b).elems.length = max a.elems.length b.elems.length := by
  simp [PolyComm.sub]

theorem PolyComm.ext' {C : Type} {x y : PolyComm C} (h : x.elems = y.elems) : x = y := by
  cases x; cases y; cases h; rfl

theorem getD_singleton_zero {G : Type} [AddCommGroup G] (i : Nat) :
    ([(0 : G)]).getD i 0 = 0 := by
  cases i <;> simp

instance : Fact (Nat.Prime 101) := ⟨by norm_num⟩

/- ### C8: the `shift_scalar` formula -/

/-- Claim C8: for every scalar `x`, `shift_scalar x` equals
`(x - 2^n - 1)/2` when the scalar field's modulus `n1` is numerically
smaller than the base field's modulus `n2` (as integers), and `x - 2^n`
otherwise, with `n` the scalar field's bit-length; the function is total
(it is a plain function into `F`, with no `Option`). -/
theorem shift_scalar_formula {F : Type} [Field F] (n1 n2 nbits : Nat) (x : F) :
    shift_scalar n1 n2 nbits x =
      if n1 < n2 then (x - 2 ^ nbits - 1) / 2 else x - 2 ^ nbits := by
  unfold shift_scalar
  split_ifs with h
  · rw [sub_sub]
  · rfl

/- ### C3: what forward map `shift_scalar` actually inverts -/

/-- Claim C3, counterexample: in the branch where the halved inverse
applies (`n1 < n2`, here `7 < 11` with bit-length `3`), applying the
claimed forward gadget map `y ↦ 2*y + 2^n` to `shift_scalar x` does NOT
return `x`: at `x = 0` over `ℚ` it returns `-1`. -/
theorem shift_scalar_roundtrip_counterexample :
    ¬ (2 * shift_scalar 7 11 3 (0 : ℚ) + 2 ^ 3 = 0) := by
  norm_num [shift_scalar]

/-- Claim C3 (amended): `shift_scalar` inverts the forward map
`y ↦ y + 2^n` in the branch where the plain inverse applies, and the
forward map `y ↦ 2*y + 2^n + 1` (NOT `2*y + 2^n`) in the branch where
the halved inverse applies, provided `2 ≠ 0` in the scalar field. -/
theorem shift_scalar_inverts {F : Type} [Field F] (n1 n2 nbits : Nat) (x : F)
    (h2 : (2 : F) ≠ 0) :
    (¬ n1 < n2 → shift_scalar n1 n2 nbits x + 2 ^ nbits = x) ∧
    (n1 < n2 → 2 * shift_scalar n1 n2 nbits x + 2 ^ nbits + 1 = x) := by
  unfold shift_scalar
  constructor
  · intro h
    rw [if_neg h]
    ring
  · intro h
    rw [if_pos h, mul_div_cancel₀ _ h2]
    ring

/-- Witness for C3's amended theorem at `n1 = 7 < n2 = 11`, `n = 3`,
`x = 5` over `ℚ`. -/
theorem shift_scalar_inverts_witness :
    2 * shift_scalar 7 11 3 (5 : ℚ) + 2 ^ 3 + 1 = 5 :=
  (shift_scalar_inverts 7 11 3 5 (by norm_num)).2 (by norm_num)

/- ### C4: chunk-wise behaviour of add and sub -/

/-- Claim C4, counterexample: `sub` does NOT treat the missing chunks of
a shorter left argument as the group identity: with `a` empty and
`b = [1]` over `ℤ`, chunk `0` of `a - b` is `1` (the chunk of `b`
passed through unchanged), not `pad(a)[0] - pad(b)[0] = -1`. -/
theorem sub_pad_counterexample :
    ¬ ((PolyComm.new ([] : List ℤ)).sub (PolyComm.new [1])).elems.getD 0 0 =
      (PolyComm.new ([] : List ℤ)).elems.getD 0 0 - (PolyComm.new [1]).elems.getD 0 0 := by
  decide

/-- Claim C4 (amended): `add` and `sub` operate index-wise with the
result length `max`.  For `add`, chunk `i` is `pad(a)[i] + pad(b)[i]`
(`getD _ 0` is exactly padding with the identity).  For `sub` this holds
at every index where `a` still has a chunk (or both have run out), but
the extra chunks of a longer `b` pass through UNCHANGED — not negated as
identity-padding would require. -/
theorem add_sub_chunkwise {G : Type} [AddCommGroup G] (a b : PolyComm G) :
    (a.add b).elems.length = max a.elems.length b.elems.length ∧
    (a.sub b).elems.length = max a.elems.length b.elems.length ∧
    (∀ i, (a.add b).elems.getD i 0 = a.elems.getD i 0 + b.elems.getD i 0) ∧
    (∀ i, i < a.elems.length ∨ b.elems.length ≤ i →
      (a.sub b).elems.getD i 0 = a.elems.getD i 0 - b.elems.getD i 0) ∧
    (∀ i, a.elems.length ≤ i → (a.sub b).elems.getD i 0 = b.elems.getD i 0) :=
  ⟨add_length a b, sub_length a b, add_getD a b, sub_getD_left a b, sub_getD_right a b⟩

/-- Witness for C4's amended theorem: `[1, 2] - [10]` at chunk `0`. -/
theorem add_sub_chunkwise_witness :
    ((PolyComm.new [(1 : ℤ), 2]).sub (PolyComm.new [10])).elems.getD 0 0 =
      (PolyComm.new [(1 : ℤ), 2]).elems.getD 0 0 - (PolyComm.new [10]).elems.getD 0 0 :=
  (add_sub_chunkwise (PolyComm.new [(1 : ℤ), 2]) (PolyComm.new [10])).2.2.2.1 0
    (Or.inl (by decide))

/- ### C9: algebraic laws of commitment addition -/

/-- Claim C9, counterexample: for the EMPTY commitment `c`,
`c + identity ≠ c`: the single identity chunk passes through, so the
result is the one-chunk identity commitment, not the empty one. -/
theorem add_identity_counterexample :
    ¬ (PolyComm.new ([] : List ℤ)).add (PolyComm.new [0]) = PolyComm.new ([] : List ℤ) := by
  decide

/-- Claim C9 (amended): commitment addition is commutative and
associative, and `c + identity = c` for every NON-empty commitment `c`
(for the empty commitment the identity chunk passes through and the
result is the one-chunk identity commitment instead). -/
theorem add_comm_assoc_identity {G : Type} [AddCommGroup G] (a b c : PolyComm G) :
    a.add b = b.add a ∧
    (a.add b).add c = a.add (b.add c) ∧
    (a.elems ≠ [] → a.add (PolyComm.new [0]) = a) := by
  refine ⟨?_, ?_, ?_⟩
  · apply PolyComm.ext'
    apply list_ext_getD
    · rw [add_length, add_length, Nat.max_comm]
    · intro i _
      rw [add_getD, add_getD, add_comm]
  · apply PolyComm.ext'
    apply list_ext_getD
    · rw [add_length, add_length, add_length, add_length, Nat.max_assoc]
    · intro i _
      rw [add_getD, add_getD, add_getD, add_getD, add_assoc]
  · intro ha
    have hl : 0 < a.elems.length := List.length_pos.mpr ha
    apply PolyComm.ext'
    apply list_ext_getD
    · rw [add_length]
      simp only [PolyComm.new, List.length_cons, List.length_nil]
      omega
    · intro i _
      rw [add_getD]
      simp only [PolyComm.new]
      rw [getD_singleton_zero, add_zero]

/-- Witness for C9's amended theorem at a concrete non-empty
commitment. -/
theorem add_comm_assoc_identity_witness :
    (PolyComm.new [(1 : ℤ)]).add (PolyComm.new [0]) = PolyComm.new [(1 : ℤ)] :=
  (add_comm_assoc_identity (PolyComm.new [(1 : ℤ)]) (PolyComm.new [2])
    (PolyComm.new [3])).2.2 (by decide)

/- ### C7: multi_scalar_mul -/

theorem msm_pairs {G F : Type} [Field F] [AddCommGroup G] [Module F G]
    (pairs : List (G × F)) :
    msm (pairs.map Prod.fst) (pairs.map Prod.snd) =
      (pairs.map fun pr => pr.2 • pr.1).sum := by
  unfold msm
  rw [List.zip_map']
  simp

theorem filterMap_chunk_sum {G F : Type} [Field F] [AddCommGroup G] [Module F G]
    (l : List (PolyComm G × F)) (chunk : Nat) :
    ((l.filterMap fun ce => (ce.1.elems[chunk]?).map fun pt => (pt, ce.2)).map
        fun pr => pr.2 • pr.1).sum =
      (l.map fun ce => ce.2 • ce.1.elems.getD chunk 0).sum := by
  induction l with
  | nil => rfl
  | cons hd tl ih =>
    rw [List.filterMap_cons, List.map_cons, List.sum_cons]
    rcases h : hd.1.elems[chunk]? with _ | pt
    · have hlen : hd.1.elems.length ≤ chunk := List.getElem?_eq_none_iff.mp h
      rw [Option.map_none', ih, List.getD_eq_default _ _ hlen, smul_zero, zero_add]
    · rw [Option.map_some', List.map_cons, List.sum_cons, ih]
      congr 2
      rw [List.getD_eq_getElem?_getD, h, Option.getD_some]

theorem mem_le_max_getD (l : List Nat) (x : Nat) (h : x ∈ l) : x ≤ l.max?.getD 0 := by
  rcases hm : l.max? with _ | m
  · exact absurd (List.max?_eq_none_iff.mp hm ▸ h) (List.not_mem_nil x)
  · have := (List.max?_eq_some_iff (fun a => le_refl a) (fun a b => max_choice a b)
      (fun a b c => max_le_iff)).mp hm
    simpa using this.2 x h

/-- Claim C7: `multi_scalar_mul(com, elm)` panics (`none`) exactly when
the two inputs differ in length; on two empty inputs it returns the
single-chunk identity commitment; and on equally long inputs the result
`r` has as many chunks as the longest input commitment and its chunk `j`
is `Σᵢ elm[i] • com[i].chunk[j]`, where a commitment missing chunk `j`
contributes the identity (that is, it is skipped). -/
theorem multi_scalar_mul_spec {G F : Type} [Field F] [AddCommGroup G] [Module F G]
    (com : List (PolyComm G)) (elm : List F) :
    (com.length ≠ elm.length → PolyComm.multi_scalar_mul com elm = none) ∧
    (PolyComm.multi_scalar_mul ([] : List (PolyComm G)) ([] : List F) =
      some (PolyComm.new [0])) ∧
    (com.length = elm.length →
      ((PolyComm.multi_scalar_mul com elm).map fun r => r.elems.length) =
        some (if com.isEmpty then 1
          else ((com.map fun c => c.elems.length).max?).getD 0) ∧
      ∀ j, ((PolyComm.multi_scalar_mul com elm).map fun r => r.elems.getD j 0) =
        some (((com.zip elm).map fun ce => ce.2 • ce.1.elems.getD j 0).sum)) := by
  refine ⟨?_, rfl, ?_⟩
  · intro hne
    unfold PolyComm.multi_scalar_mul
    rw [if_neg hne]
  · intro hlen
    rcases hcom : com with _ | ⟨c0, ctl⟩
    · subst hcom
      have helm : elm = [] := List.length_eq_zero.mp hlen.symm
      subst helm
      exact ⟨rfl, fun j => by
        simp [PolyComm.multi_scalar_mul, PolyComm.new, getD_singleton_zero]⟩
    · rw [← hcom]
      have hne : com.isEmpty = false := by rw [hcom]; rfl
      have helmne : elm.isEmpty = false := by
        rcases elm with _ | _
        · rw [hcom] at hlen; exact absurd hlen (by simp)
        · rfl
      unfold PolyComm.multi_scalar_mul
      rw [if_pos hlen, hne, helmne]
      simp only [Bool.or_self, Bool.false_eq_true, if_false]
      constructor
      · simp [PolyComm.new]
      · intro j
        simp only [Option.map_some', Option.some.injEq, PolyComm.new]
        set es := ((com.map fun c => c.elems.length).max?).getD 0 with hes
        rcases lt_or_ge j es with hj | hj
        · rw [List.getD_eq_getElem?_getD, List.getElem?_map, List.getElem?_range hj]
          rw [Option.map_some', Option.getD_some, msm_pairs, filterMap_chunk_sum]
        · rw [List.getD_eq_default _ _ (by simpa using hj)]
          symm
          apply List.sum_eq_zero
          intro x hx
          rw [List.mem_map] at hx
          obtain ⟨⟨c, sc⟩, hce, hxeq⟩ := hx
          have hmem : c ∈ com := (List.of_mem_zip hce).1
          have hle : c.elems.length ≤ es := by
            apply mem_le_max_getD
            exact List.mem_map_of_mem (fun c => c.elems.length) hmem
          rw [← hxeq]
          show sc • c.elems.getD j 0 = 0
          rw [List.getD_eq_default _ _ (le_trans hle hj), smul_zero]

/- ### Generic Option-monad helpers -/

theorem mapM_eq_some_of {α β : Type} (f : α → Option β) (g : α → β) (l : List α)
    (h : ∀ a ∈ l, f a = some (g a)) : l.mapM f = some (l.map g) := by
  induction l with
  | nil => rfl
  | cons a l ih =>
    have ha := h a (List.mem_cons_self a l)
    have hl := ih fun x hx => h x (List.mem_cons_of_mem a hx)
    rw [List.mapM_cons, ha]
    show (l.mapM f).bind _ = _
    rw [hl]
    rfl

theorem mapM_eq_none_of {α β : Type} (f : α → Option β) (l : List α) (a : α)
    (ha : a ∈ l) (hf : f a = none) : l.mapM f = none := by
  induction l with
  | nil => exact absurd ha (List.not_mem_nil a)
  | cons b l ih =>
    rw [List.mapM_cons]
    rcases List.mem_cons.mp ha with h | h
    · subst h
      rw [hf]
      rfl
    · rcases hb : f b with _ | v
      · rfl
      · show (l.mapM f).bind _ = _
        rw [ih h]
        rfl

theorem foldlM_eq_none_of {σ α : Type} (f : σ → α → Option σ) (l : List α) (a : α)
    (ha : a ∈ l) (hf : ∀ s, f s a = none) : ∀ s, l.foldlM f s = none := by
  induction l with
  | nil => exact fun s => absurd ha (List.not_mem_nil a)
  | cons b l ih =>
    intro s
    rw [List.foldlM_cons]
    rcases List.mem_cons.mp ha with h | h
    · subst h
      rw [hf s]
      rfl
    · rcases hb : f s b with _ | s'
      · rfl
      · show l.foldlM f s' = none
        exact ih h s'

/- ### Horner evaluation as an explicit power sum -/

theorem eval_polynomial_eq_sum {F : Type} [Field F] (coeffs : List F) (x : F) :
    eval_polynomial coeffs x =
      ∑ j ∈ Finset.range coeffs.length, coeffs.getD j 0 * x ^ j := by
  induction coeffs with
  | nil => simp [eval_polynomial]
  | cons c cs ih =>
    show c + x * eval_polynomial cs x = _
    rw [ih, List.length_cons, Finset.sum_range_succ']
    simp only [List.getD_cons_succ, List.getD_cons_zero, pow_zero, mul_one]
    rw [Finset.mul_sum, add_comm]
    congr 1
    apply Finset.sum_congr rfl
    intro j _
    ring

theorem sum_pow_shift {F : Type} [Field F] (ps : F) (n : Nat) (t : Nat → F) :
    ∑ r ∈ Finset.range n, ps ^ (r + 1) * t r =
      ps * ∑ r ∈ Finset.range n, ps ^ r * t r := by
  rw [Finset.mul_sum]
  apply Finset.sum_congr rfl
  intro r _
  ring

/- ### Behaviour of one `combined_inner_product` entry -/

theorem cip_step_none_empty {F : Type} [Field F] (ps es : F) (st : F × F) :
    cip_step ps es st [] = none := rfl

theorem cip_step_skip {F : Type} [Field F] (ps es : F) (st : F × F)
    (tl : List (List F)) : cip_step ps es st ([] :: tl) = some st := rfl

theorem cip_step_none_short {F : Type} [Field F] (ps es : F) (st : F × F)
    (r0 : List F) (tl : List (List F)) (row : List F) (hrow : row ∈ r0 :: tl)
    (hshort : row.length < r0.length) :
    cip_step ps es st (r0 :: tl) = none := by
  unfold cip_step
  rw [List.head?_cons]
  show (if r0.isEmpty = true then pure st else _) = none
  have hie : r0.isEmpty = false := by
    rcases r0 with _ | _
    · exact absurd hshort (by simp)
    · rfl
  rw [hie]
  simp only [Bool.false_eq_true, if_false]
  have houter : ((List.range r0.length).mapM fun i =>
      (r0 :: tl).mapM fun v => v[i]?) = none := by
    apply mapM_eq_none_of _ _ row.length (List.mem_range.mpr hshort)
    apply mapM_eq_none_of _ _ row hrow
    exact List.getElem?_eq_none (le_refl row.length)
  rw [houter]
  rfl

theorem cip_step_some {F : Type} [Field F] (ps es : F) (st : F × F) (r0 : List F)
    (tl : List (List F)) (hne : r0 ≠ [])
    (hrows : ∀ row ∈ r0 :: tl, r0.length ≤ row.length) :
    cip_step ps es st (r0 :: tl) =
      some ((columns (r0 :: tl)).foldl
        (fun st2 ev => (st2.1 + st2.2 * eval_polynomial ev es, st2.2 * ps)) st) := by
  unfold cip_step
  rw [List.head?_cons]
  show (if r0.isEmpty = true then pure st else _) = _
  have hie : r0.isEmpty = false := by
    rcases r0 with _ | _
    · exact absurd rfl hne
    · rfl
  rw [hie]
  simp only [Bool.false_eq_true, if_false]
  have houter : ((List.range r0.length).mapM fun i =>
      (r0 :: tl).mapM fun v => v[i]?) = some (columns (r0 :: tl)) := by
    unfold columns
    rw [List.headD_cons]
    apply mapM_eq_some_of
    intro i hi
    apply mapM_eq_some_of
    intro v hv
    have hlt : i < v.length := lt_of_lt_of_le (List.mem_range.mp hi) (hrows v hv)
    rw [List.getElem?_eq_getElem hlt]
    rw [List.getD_eq_getElem?_getD, List.getElem?_eq_getElem hlt, Option.getD_some]
  rw [houter]
  rfl

theorem cip_fold {F : Type} [Field F] (ps es : F) (cols : List (List F)) :
    ∀ res xi : F,
    cols.foldl (fun st2 ev => (st2.1 + st2.2 * eval_polynomial ev es, st2.2 * ps))
        (res, xi) =
      (res + xi * ∑ r ∈ Finset.range cols.length,
         ps ^ r * eval_polynomial (cols.getD r []) es,
       xi * ps ^ cols.length) := by
  induction cols with
  | nil => intro res xi; simp
  | cons c cs ih =>
    intro res xi
    rw [List.foldl_cons, ih]
    simp only [List.length_cons, Prod.mk.injEq]
    constructor
    · rw [Finset.sum_range_succ'
        (fun r => ps ^ r * eval_polynomial ((c :: cs).getD r []) es) cs.length]
      simp only [List.getD_cons_succ, List.getD_cons_zero, pow_zero, one_mul]
      rw [sum_pow_shift]
      ring
    · rw [pow_succ]
      ring

theorem includedColumns_nil {F : Type} [Field F] :
    includedColumns ([] : List (List (List F))) = [] := rfl

theorem includedColumns_cons_skip {F : Type} [Field F] (tl : List (List F))
    (rest : List (List (List F))) :
    includedColumns ((([] : List F) :: tl) :: rest) = includedColumns rest := by
  unfold includedColumns includedEntries
  rw [List.filter_cons_of_neg (by simp)]

theorem includedColumns_cons_incl {F : Type} [Field F] (c : F) (cs : List F)
    (tl : List (List F)) (rest : List (List (List F))) :
    includedColumns (((c :: cs) :: tl) :: rest) =
      columns ((c :: cs) :: tl) ++ includedColumns rest := by
  unfold includedColumns includedEntries
  rw [List.filter_cons_of_pos (by rfl), List.flatMap_cons]

theorem cip_foldlM {F : Type} [Field F] (ps es : F) (polys : List (List (List F)))
    (hwf : ∀ tr ∈ polys, tr ≠ [] ∧ ∀ row ∈ tr, (tr.headD []).length ≤ row.length) :
    ∀ res xi : F, polys.foldlM (cip_step ps es) (res, xi) =
      some (res + xi * ∑ r ∈ Finset.range (includedColumns polys).length,
              ps ^ r * eval_polynomial ((includedColumns polys).getD r []) es,
            xi * ps ^ (includedColumns polys).length) := by
  induction polys with
  | nil =>
    intro res xi
    simp [includedColumns_nil]
  | cons tr rest ih =>
    intro res xi
    obtain ⟨hne, hrows⟩ := hwf tr (List.mem_cons_self tr rest)
    have hwfr : ∀ t ∈ rest, t ≠ [] ∧ ∀ row ∈ t, (t.headD []).length ≤ row.length :=
      fun t ht => hwf t (List.mem_cons_of_mem tr ht)
    rcases tr with _ | ⟨r0, tl⟩
    · exact absurd rfl hne
    rcases r0 with _ | ⟨c, cs⟩
    · -- first row empty: the entry is skipped and the state is unchanged
      rw [List.foldlM_cons, cip_step_skip]
      show rest.foldlM _ (res, xi) = _
      rw [ih hwfr res xi, includedColumns_cons_skip]
    · -- the entry is processed: fold over its columns, then recurse
      rw [List.foldlM_cons,
        cip_step_some ps es (res, xi) (c :: cs) tl (by simp) (by exact hrows),
        cip_fold]
      show rest.foldlM _ _ = _
      rw [ih hwfr]
      rw [includedColumns_cons_incl]
      set A := columns ((c :: cs) :: tl) with hA
      set B := includedColumns rest with hB
      rw [Option.some_inj, Prod.mk.injEq]
      have h1 : ∑ r ∈ Finset.range A.length,
            ps ^ r * eval_polynomial ((A ++ B).getD r []) es =
          ∑ r ∈ Finset.range A.length, ps ^ r * eval_polynomial (A.getD r []) es := by
        apply Finset.sum_congr rfl
        intro r hr
        rw [List.getD_append _ _ _ _ (List.mem_range.mp hr)]
      have h2 : ∑ r ∈ Finset.range B.length,
            ps ^ (A.length + r) * eval_polynomial ((A ++ B).getD (A.length + r) []) es =
          ps ^ A.length *
            ∑ r ∈ Finset.range B.length, ps ^ r * eval_polynomial (B.getD r []) es := by
        rw [Finset.mul_sum]
        apply Finset.sum_congr rfl
        intro r _
        rw [List.getD_append_right _ _ _ _ (Nat.le_add_right A.length r),
          Nat.add_sub_cancel_left, pow_add]
        ring
      constructor
      · rw [List.length_append, Finset.sum_range_add, h1, h2]
        ring
      · rw [List.length_append, pow_add]
        ring

/- ### C1: the combined inner product formula -/

/-- Claim C1: on well-formed input (every entry has at least one row and
no row shorter than its first row — see C10 for why this is needed),
`combined_inner_product` returns the sum, over the chunk rows `r` of the
non-skipped polynomials in processing order, of
`polyscale ^ r * Σ_j row[j] * evalscale ^ j`: the running exponent `r`
advances by exactly one per chunk and is continuous across chunk
boundaries of consecutive polynomials (it is the global position in
`includedColumns`), never reset per polynomial. -/
theorem combined_inner_product_spec {F : Type} [Field F] (polyscale evalscale : F)
    (polys : List (List (List F)))
    (hwf : ∀ tr ∈ polys, tr ≠ [] ∧ ∀ row ∈ tr, (tr.headD []).length ≤ row.length) :
    combined_inner_product polyscale evalscale polys =
      some (∑ r ∈ Finset.range (includedColumns polys).length,
        polyscale ^ r * ∑ j ∈ Finset.range ((includedColumns polys).getD r []).length,
          ((includedColumns polys).getD r []).getD j 0 * evalscale ^ j) := by
  unfold combined_inner_product
  rw [cip_foldlM polyscale evalscale polys hwf 0 1, Option.map_some']
  dsimp only
  rw [zero_add, one_mul]
  congr 1
  apply Finset.sum_congr rfl
  intro r _
  rw [eval_polynomial_eq_sum]

/-- Witness for C1: the concrete scenarios of the claim over `ZMod 101`:
two one-chunk one-point polynomials with values `7` and `11`, scales
`polyscale = 3`, `evalscale = 5`, give `7 + 11 * 3 = 40` (and the
single-polynomial case gives `7`). -/
theorem combined_inner_product_spec_witness :
    combined_inner_product (3 : ZMod 101) 5 [[[7]], [[11]]] = some 40 ∧
    combined_inner_product (3 : ZMod 101) 5 [[[7]]] = some 7 := by
  constructor
  · rw [combined_inner_product_spec 3 5 [[[7]], [[11]]] (by decide)]
    decide
  · rw [combined_inner_product_spec 3 5 [[[7]]] (by decide)]
    decide

/- ### C10: partiality of combined_inner_product -/

/-- Claim C10: `combined_inner_product` panics (returns `none`) whenever
some entry of `polys` is an empty list of rows or contains a row shorter
than that entry's first row; under the precondition that every entry has
at least one row and all its rows share the first row's length, the
panic branch is unreachable and the function is total (returns a
value). -/
theorem combined_inner_product_totality {F : Type} [Field F] (ps es : F)
    (polys : List (List (List F))) :
    ((∃ tr ∈ polys, tr = [] ∨ ∃ row ∈ tr, row.length < (tr.headD []).length) →
      combined_inner_product ps es polys = none) ∧
    ((∀ tr ∈ polys, tr ≠ [] ∧ ∀ row ∈ tr, row.length = (tr.headD []).length) →
      (combined_inner_product ps es polys).isSome) := by
  constructor
  · rintro ⟨tr, htr, hbad⟩
    unfold combined_inner_product
    have hnone : ∀ st : F × F, cip_step ps es st tr = none := by
      intro st
      rcases tr with _ | ⟨r0, tl⟩
      · exact cip_step_none_empty ps es st
      · rcases hbad with h | ⟨row, hrow, hshort⟩
        · exact absurd h (by simp)
        · exact cip_step_none_short ps es st r0 tl row hrow
            (by simpa using hshort)
    rw [foldlM_eq_none_of (cip_step ps es) polys tr htr hnone]
    rfl
  · intro hwf
    unfold combined_inner_product
    rw [cip_foldlM ps es polys
      (fun tr htr => ⟨(hwf tr htr).1, fun row hrow => le_of_eq ((hwf tr htr).2 row hrow).symm⟩) 0 1]
    rfl

/-- Witness for C10: an entry that is an empty list of rows makes the
function panic, and well-formed input makes it return a value. -/
theorem combined_inner_product_totality_witness :
    combined_inner_product (3 : ZMod 101) 5 ([[], [[11]]] : List (List (List (ZMod 101)))) = none ∧
    (combined_inner_product (3 : ZMod 101) 5 [[[7, 1], [2, 9]]]).isSome :=
  ⟨(combined_inner_product_totality 3 5 _).1 ⟨[], by decide, Or.inl rfl⟩,
   (combined_inner_product_totality 3 5 _).2 (by decide)⟩

/-- Witness for C7 on concrete equally long inputs over `ZMod 101`:
chunk `0` of the result is the stated sum. -/
theorem multi_scalar_mul_spec_witness :
    ([PolyComm.new [(2 : ZMod 101)], PolyComm.new [3, 4]].length =
      [(1 : ZMod 101), 2].length) ∧
    ((PolyComm.multi_scalar_mul [PolyComm.new [(2 : ZMod 101)], PolyComm.new [3, 4]]
        [(1 : ZMod 101), 2]).map fun r => r.elems.getD 0 0) =
      some ((([PolyComm.new [(2 : ZMod 101)], PolyComm.new [3, 4]].zip
        [(1 : ZMod 101), 2]).map fun ce => ce.2 • ce.1.elems.getD 0 0).sum) :=
  ⟨by decide, ((multi_scalar_mul_spec _ _).2.2 (by decide)).2 0⟩

/- ### More list-index helpers -/

theorem getD_set_ne {α : Type} (l : List α) (i j : Nat) (v d : α) (h : i ≠ j) :
    (l.set i v).getD j d = l.getD j d := by
  rw [List.getD_eq_getElem?_getD, List.getD_eq_getElem?_getD, List.getElem?_set_ne h]

theorem getD_set_self {α : Type} (l : List α) (i : Nat) (v d : α) (h : i < l.length) :
    (l.set i v).getD i d = v := by
  rw [List.getD_eq_getElem?_getD, List.getElem?_set_self h, Option.getD_some]

theorem map_getD_range {α : Type} (l : List α) (d : α) :
    (List.range l.length).map (fun i => l.getD i d) = l := by
  apply List.ext_getElem (by simp)
  intro i h1 h2
  simp [List.getD_eq_getElem?_getD, List.getElem?_eq_getElem h2]

theorem getD_map_range {α : Type} (f : Nat → α) (L pt : Nat) (d : α) (h : pt < L) :
    ((List.range L).map f).getD pt d = f pt := by
  rw [List.getD_eq_getElem?_getD, List.getElem?_map, List.getElem?_range h]
  rfl

theorem getD_mem {α : Type} (l : List α) (n : Nat) (d : α) (h : n < l.length) :
    l.getD n d ∈ l := by
  rw [List.getD_eq_getElem l d h]
  exact List.getElem_mem h

theorem headD_mem {α : Type} (l : List α) (d : α) (h : l ≠ []) : l.headD d ∈ l := by
  cases l
  · exact absurd rfl h
  · exact List.mem_cons_self _ _

/- ### The inner point loop of combine_evaluations -/

theorem ce_point_step_some {F : Type} [Field F] (xi : F) (chunk : Nat)
    (table : List (List F)) (acc : List F) (pt : Nat) (hpt : pt < table.length)
    (hrow : chunk < (table.getD pt []).length) (hacc : pt < acc.length) :
    ce_point_step xi chunk table acc pt =
      some (acc.set pt (acc.getD pt 0 + (table.getD pt []).getD chunk 0 * xi)) := by
  unfold ce_point_step
  have h1 : table[pt]? = some (table.getD pt []) := by
    rw [List.getD_eq_getElem table [] hpt, List.getElem?_eq_getElem hpt]
  have h2 : (table.getD pt [])[chunk]? = some ((table.getD pt []).getD chunk 0) := by
    rw [List.getD_eq_getElem _ 0 hrow, List.getElem?_eq_getElem hrow]
  rw [h1]
  show ((table.getD pt [])[chunk]?).bind _ = _
  rw [h2]
  show (if pt < acc.length then _ else none) = _
  rw [if_pos hacc]

theorem ce_point_loop_aux {F : Type} [Field F] (xi : F) (chunk : Nat)
    (table : List (List F)) :
    ∀ (n i0 : Nat) (acc : List F), i0 + n = table.length → table.length ≤ acc.length →
    (∀ pt, i0 ≤ pt → pt < table.length → chunk < (table.getD pt []).length) →
    (List.range' i0 n).foldlM (ce_point_step xi chunk table) acc =
      some ((List.range acc.length).map fun pt =>
        if i0 ≤ pt ∧ pt < table.length then
          acc.getD pt 0 + (table.getD pt []).getD chunk 0 * xi
        else acc.getD pt 0) := by
  intro n
  induction n with
  | zero =>
    intro i0 acc hlen hacc _
    have hval : ∀ pt, (if i0 ≤ pt ∧ pt < table.length then
        acc.getD pt 0 + (table.getD pt []).getD chunk 0 * xi else acc.getD pt 0) =
        acc.getD pt 0 := fun pt => if_neg (by omega)
    simp only [List.range'_zero, List.foldlM_nil, hval, map_getD_range]
    rfl
  | succ n ih =>
    intro i0 acc hlen hacc hrows
    have hi0 : i0 < table.length := by omega
    have hrowlt : chunk < (table.getD i0 []).length := hrows i0 (le_refl i0) hi0
    have hacc0 : i0 < acc.length := lt_of_lt_of_le hi0 hacc
    rw [List.range'_succ i0 n 1, List.foldlM_cons,
      ce_point_step_some xi chunk table acc i0 hi0 hrowlt hacc0]
    show (List.range' (i0 + 1) n).foldlM (ce_point_step xi chunk table)
      (acc.set i0 (acc.getD i0 0 + (table.getD i0 []).getD chunk 0 * xi)) = _
    rw [ih (i0 + 1) (acc.set i0 (acc.getD i0 0 + (table.getD i0 []).getD chunk 0 * xi))
      (by omega) (by rw [List.length_set]; exact hacc)
      (fun pt hle hlt => hrows pt (by omega) hlt)]
    rw [Option.some_inj, List.length_set]
    apply List.map_congr_left
    intro pt hpt
    rw [List.mem_range] at hpt
    by_cases hpt0 : pt = i0
    · subst hpt0
      rw [if_neg (by omega), if_pos ⟨le_refl pt, hi0⟩, getD_set_self _ _ _ _ hacc0]
    · rw [getD_set_ne _ _ _ _ _ (Ne.symm hpt0)]
      by_cases hc : i0 + 1 ≤ pt ∧ pt < table.length
      · rw [if_pos hc, if_pos ⟨by omega, hc.2⟩]
      · rw [if_neg hc, if_neg (by omega)]

theorem ce_point_loop_spec {F : Type} [Field F] (xi : F) (chunk : Nat)
    (table : List (List F)) (acc : List F) (hacc : table.length ≤ acc.length)
    (hrows : ∀ pt, pt < table.length → chunk < (table.getD pt []).length) :
    ce_point_loop xi chunk table acc =
      some ((List.range acc.length).map fun pt =>
        if pt < table.length then
          acc.getD pt 0 + (table.getD pt []).getD chunk 0 * xi
        else acc.getD pt 0) := by
  unfold ce_point_loop
  rw [List.range_eq_range', ce_point_loop_aux xi chunk table table.length 0 acc
    (by omega) hacc (fun pt _ hlt => hrows pt hlt)]
  rw [Option.some_inj]
  apply List.map_congr_left
  intro pt _
  by_cases hc : pt < table.length
  · rw [if_pos ⟨Nat.zero_le pt, hc⟩, if_pos hc]
  · rw [if_neg (by omega), if_neg hc]

/- ### The chunk loop of combine_evaluations -/

theorem ce_chunk_step_some {F : Type} [Field F] (ps : F) (table : List (List F))
    (acc : List F) (xi : F) (chunk : Nat) (hacc : table.length ≤ acc.length)
    (hrows : ∀ pt, pt < table.length → chunk < (table.getD pt []).length) :
    ce_chunk_step ps table (acc, xi) chunk =
      some ((List.range acc.length).map fun pt =>
        if pt < table.length then
          acc.getD pt 0 + (table.getD pt []).getD chunk 0 * xi
        else acc.getD pt 0,
       xi * ps) := by
  unfold ce_chunk_step
  dsimp only
  rw [ce_point_loop_spec xi chunk table acc hacc hrows]
  rfl

theorem ce_chunk_fold {F : Type} [Field F] (ps : F) (table : List (List F)) :
    ∀ (n c0 : Nat) (acc : List F) (xi : F), table.length ≤ acc.length →
    (∀ pt, pt < table.length → c0 + n ≤ (table.getD pt []).length) →
    (List.range' c0 n).foldlM (ce_chunk_step ps table) (acc, xi) =
      some ((List.range acc.length).map fun pt =>
        if pt < table.length then
          acc.getD pt 0 +
            ∑ j ∈ Finset.range n, (table.getD pt []).getD (c0 + j) 0 * (xi * ps ^ j)
        else acc.getD pt 0,
       xi * ps ^ n) := by
  intro n
  induction n with
  | zero =>
    intro c0 acc xi hacc _
    simp only [List.range'_zero, List.foldlM_nil, Finset.sum_range_zero, add_zero,
      ite_self, map_getD_range, pow_zero, mul_one]
    rfl
  | succ n ih =>
    intro c0 acc xi hacc hrows
    rw [List.range'_succ c0 n 1, List.foldlM_cons,
      ce_chunk_step_some ps table acc xi c0 hacc
        (fun pt hpt => lt_of_lt_of_le (by omega) (hrows pt hpt))]
    show (List.range' (c0 + 1) n).foldlM (ce_chunk_step ps table)
      ((List.range acc.length).map fun pt =>
        if pt < table.length then
          acc.getD pt 0 + (table.getD pt []).getD c0 0 * xi
        else acc.getD pt 0,
       xi * ps) = _
    set A := (List.range acc.length).map fun pt =>
      if pt < table.length then
        acc.getD pt 0 + (table.getD pt []).getD c0 0 * xi
      else acc.getD pt 0 with hA
    have hAlen : A.length = acc.length := by
      rw [hA, List.length_map, List.length_range]
    rw [ih (c0 + 1) A (xi * ps) (by omega)
      (fun pt hpt => by have := hrows pt hpt; omega)]
    rw [Option.some_inj, Prod.mk.injEq]
    constructor
    · rw [hAlen]
      apply List.map_congr_left
      intro pt hpt
      rw [List.mem_range] at hpt
      by_cases hc : pt < table.length
      · rw [if_pos hc, if_pos hc, hA, getD_map_range _ _ _ _ hpt, if_pos hc]
        have hs : ∑ j ∈ Finset.range (n + 1),
              (table.getD pt []).getD (c0 + j) 0 * (xi * ps ^ j) =
            ∑ j ∈ Finset.range n,
              (table.getD pt []).getD (c0 + 1 + j) 0 * (xi * ps * ps ^ j) +
            (table.getD pt []).getD c0 0 * xi := by
          rw [Finset.sum_range_succ'
            (fun j => (table.getD pt []).getD (c0 + j) 0 * (xi * ps ^ j)) n]
          simp only [Nat.add_zero, pow_zero, mul_one]
          congr 1
          apply Finset.sum_congr rfl
          intro j _
          rw [show c0 + (j + 1) = c0 + 1 + j by omega]
          ring
        rw [hs]
        ring
      · rw [if_neg hc, if_neg hc, hA, getD_map_range _ _ _ _ hpt, if_neg hc]
    · rw [pow_succ]
      ring

theorem ce_chunk_loop_spec {F : Type} [Field F] (ps : F) (table : List (List F))
    (acc : List F) (xi : F) (hne : table ≠ []) (hacc : table.length ≤ acc.length)
    (hrows : ∀ row ∈ table, (table.headD []).length ≤ row.length) :
    ce_chunk_loop ps table (acc, xi) =
      some ((List.range acc.length).map fun pt =>
        if pt < table.length then
          acc.getD pt 0 + ∑ j ∈ Finset.range (table.headD []).length,
            (table.getD pt []).getD j 0 * (xi * ps ^ j)
        else acc.getD pt 0,
       xi * ps ^ (table.headD []).length) := by
  unfold ce_chunk_loop
  have h0 : table[0]? = some (table.headD []) := by
    cases table
    · exact absurd rfl hne
    · rw [List.getElem?_cons_zero, List.headD_cons]
  rw [h0]
  show (List.range (table.headD []).length).foldlM (ce_chunk_step ps table) (acc, xi) = _
  rw [List.range_eq_range', ce_chunk_fold ps table (table.headD []).length 0 acc xi hacc
    (fun pt hpt => by simpa using hrows (table.getD pt []) (getD_mem table pt [] hpt))]
  rw [Option.some_inj, Prod.mk.injEq]
  refine ⟨?_, rfl⟩
  apply List.map_congr_left
  intro pt _
  by_cases hc : pt < table.length
  · rw [if_pos hc, if_pos hc]
    congr 1
    apply Finset.sum_congr rfl
    intro j _
    rw [Nat.zero_add]
  · rw [if_neg hc, if_neg hc]

/- ### The outer loop of combine_evaluations -/

theorem ce_outer_some {G F : Type} [Field F] (ps : F) (entries : List (Evaluation G F)) :
    ∀ (acc : List F) (xi : F),
    (∀ e ∈ entries, e.evaluations ≠ [] ∧ e.evaluations.length ≤ acc.length ∧
      ∀ row ∈ e.evaluations, (e.evaluations.headD []).length ≤ row.length) →
    ∃ accF xiF, entries.foldlM (ce_entry_step ps) (acc, xi) = some (accF, xiF) ∧
      accF.length = acc.length := by
  induction entries with
  | nil => exact fun acc xi _ => ⟨acc, xi, rfl, rfl⟩
  | cons e rest ih =>
    intro acc xi h
    obtain ⟨hne, hlen, hrows⟩ := h e (List.mem_cons_self e rest)
    set A := (List.range acc.length).map fun pt =>
      if pt < e.evaluations.length then
        acc.getD pt 0 + ∑ j ∈ Finset.range (e.evaluations.headD []).length,
          (e.evaluations.getD pt []).getD j 0 * (xi * ps ^ j)
      else acc.getD pt 0 with hA
    have hAlen : A.length = acc.length := by rw [hA, List.length_map, List.length_range]
    have hstep : ce_entry_step ps (acc, xi) e =
        some (A, xi * ps ^ (e.evaluations.headD []).length) :=
      ce_chunk_loop_spec ps e.evaluations acc xi hne hlen hrows
    obtain ⟨accF, xiF, hfold, hlenF⟩ := ih A (xi * ps ^ (e.evaluations.headD []).length)
      (fun e2 he2 => by
        obtain ⟨h1, h2, h3⟩ := h e2 (List.mem_cons_of_mem e he2)
        exact ⟨h1, by rw [hAlen]; exact h2, h3⟩)
    refine ⟨accF, xiF, ?_, by rw [hlenF, hAlen]⟩
    rw [List.foldlM_cons, hstep]
    exact hfold

theorem ce_outer_eq {G F : Type} [Field F] (ps : F) (entries : List (Evaluation G F)) :
    ∀ (acc : List F) (xi : F),
    (∀ e ∈ entries, e.evaluations ≠ [] ∧ e.evaluations.length = acc.length ∧
      ∀ row ∈ e.evaluations, row.length = (e.evaluations.headD []).length) →
    entries.foldlM (ce_entry_step ps) (acc, xi) =
      some ((List.range acc.length).map fun pt =>
        acc.getD pt 0 +
          ∑ r ∈ Finset.range (entries.flatMap fun e => e.evaluations.getD pt []).length,
            (entries.flatMap fun e => e.evaluations.getD pt []).getD r 0 * (xi * ps ^ r),
       xi * ps ^ ((entries.map fun e => (e.evaluations.headD []).length).sum)) := by
  induction entries with
  | nil =>
    intro acc xi _
    simp only [List.flatMap_nil, List.length_nil, Finset.range_zero, Finset.sum_empty,
      add_zero, map_getD_range, List.map_nil, List.sum_nil, pow_zero, mul_one]
    rfl
  | cons e rest ih =>
    intro acc xi h
    obtain ⟨hne, hlen, hrows⟩ := h e (List.mem_cons_self e rest)
    set L := (e.evaluations.headD []).length with hL
    set A := (List.range acc.length).map fun pt =>
      if pt < e.evaluations.length then
        acc.getD pt 0 + ∑ j ∈ Finset.range L,
          (e.evaluations.getD pt []).getD j 0 * (xi * ps ^ j)
      else acc.getD pt 0 with hA
    have hAlen : A.length = acc.length := by rw [hA, List.length_map, List.length_range]
    have hstep : ce_entry_step ps (acc, xi) e = some (A, xi * ps ^ L) :=
      ce_chunk_loop_spec ps e.evaluations acc xi hne (le_of_eq hlen)
        (fun row hrow => le_of_eq (hrows row hrow).symm)
    rw [List.foldlM_cons, hstep]
    show rest.foldlM (ce_entry_step ps) (A, xi * ps ^ L) = _
    rw [ih A (xi * ps ^ L) (fun e2 he2 => by
      obtain ⟨h1, h2, h3⟩ := h e2 (List.mem_cons_of_mem e he2)
      exact ⟨h1, by rw [hAlen]; exact h2, h3⟩)]
    rw [Option.some_inj, Prod.mk.injEq]
    constructor
    · rw [hAlen]
      apply List.map_congr_left
      intro pt hpt
      rw [List.mem_range] at hpt
      have hptlen : pt < e.evaluations.length := by rw [hlen]; exact hpt
      have hArow : A.getD pt 0 = acc.getD pt 0 + ∑ j ∈ Finset.range L,
          (e.evaluations.getD pt []).getD j 0 * (xi * ps ^ j) := by
        rw [hA, getD_map_range _ _ _ _ hpt, if_pos hptlen]
      rw [hArow, List.flatMap_cons]
      set rowpt := e.evaluations.getD pt [] with hrowpt
      set restflat := rest.flatMap fun e2 => e2.evaluations.getD pt [] with hrf
      have hrowlen : rowpt.length = L := hrows rowpt (getD_mem _ _ _ hptlen)
      rw [List.length_append, hrowlen, Finset.sum_range_add]
      have h1 : ∑ r ∈ Finset.range L,
          (rowpt ++ restflat).getD r 0 * (xi * ps ^ r) =
          ∑ j ∈ Finset.range L, rowpt.getD j 0 * (xi * ps ^ j) := by
        apply Finset.sum_congr rfl
        intro r hr
        rw [List.getD_append _ _ _ _ (by rw [hrowlen]; exact List.mem_range.mp hr)]
      have h2 : ∑ r ∈ Finset.range restflat.length,
          (rowpt ++ restflat).getD (L + r) 0 * (xi * ps ^ (L + r)) =
          ∑ r ∈ Finset.range restflat.length,
            restflat.getD r 0 * (xi * ps ^ L * ps ^ r) := by
        apply Finset.sum_congr rfl
        intro r _
        rw [List.getD_append_right _ _ _ _ (by rw [hrowlen]; exact Nat.le_add_right L r)]
        rw [hrowlen, Nat.add_sub_cancel_left, pow_add]
        ring
      rw [h1, h2, add_assoc]
    · rw [List.map_cons, List.sum_cons, pow_add]
      ring

/- ### combine_commitments as an explicit power ladder -/

theorem cc_chunk_fold {G F : Type} [Field F] (ps rb : F) (l : List G) :
    ∀ (s : List F) (p : List G) (xi : F),
    l.foldl (cc_chunk_step ps rb) (s, p, xi) =
      (s ++ (List.range l.length).map fun r => rb * (xi * ps ^ r),
       p ++ l, xi * ps ^ l.length) := by
  induction l with
  | nil =>
    intro s p xi
    simp
  | cons g gs ih =>
    intro s p xi
    rw [List.foldl_cons]
    show gs.foldl (cc_chunk_step ps rb) (s ++ [rb * xi], p ++ [g], xi * ps) = _
    rw [ih]
    simp only [List.length_cons, Prod.mk.injEq]
    refine ⟨?_, ?_, ?_⟩
    · simp only [List.range_succ_eq_map, List.map_cons, List.map_map, pow_zero, mul_one]
      have hmap : List.map ((fun r => rb * (xi * ps ^ r)) ∘ Nat.succ)
          (List.range gs.length) =
          List.map (fun r => rb * (xi * ps * ps ^ r)) (List.range gs.length) := by
        apply List.map_congr_left
        intro r _
        simp only [Function.comp_apply, Nat.succ_eq_add_one]
        ring
      rw [hmap, ← List.append_cons]
    · rw [← List.append_cons]
    · rw [pow_succ]
      ring

theorem cc_entry_fold {G F : Type} [Field F] (ps rb : F)
    (entries : List (Evaluation G F)) :
    ∀ (s : List F) (p : List G) (xi : F),
    entries.foldl (cc_entry_step ps rb) (s, p, xi) =
      (s ++ (List.range (entries.flatMap fun e => e.commitment.elems).length).map
          (fun r => rb * (xi * ps ^ r)),
       p ++ (entries.flatMap fun e => e.commitment.elems),
       xi * ps ^ (entries.flatMap fun e => e.commitment.elems).length) := by
  induction entries with
  | nil =>
    intro s p xi
    simp
  | cons e rest ih =>
    intro s p xi
    rw [List.foldl_cons]
    show rest.foldl (cc_entry_step ps rb)
      (e.commitment.elems.foldl (cc_chunk_step ps rb) (s, p, xi)) = _
    rw [cc_chunk_fold ps rb e.commitment.elems s p xi, ih]
    simp only [List.flatMap_cons, List.length_append, Prod.mk.injEq]
    refine ⟨?_, ?_, ?_⟩
    · rw [List.append_assoc]
      congr 1
      rw [List.range_add, List.map_append, List.map_map]
      congr 1
      apply List.map_congr_left
      intro r _
      simp only [Function.comp_apply]
      rw [pow_add]
      ring
    · rw [List.append_assoc]
    · rw [pow_add]
      ring

theorem combine_commitments_eq {G F : Type} [Field F] (evs : List (Evaluation G F))
    (s : List F) (p : List G) (ps rb : F) :
    combine_commitments evs s p ps rb =
      (s ++ (List.range (chunksFlat evs).length).map fun r => rb * ps ^ r,
       p ++ chunksFlat evs) := by
  unfold combine_commitments chunksFlat
  rw [cc_entry_fold ps rb (included evs) s p 1]
  dsimp only
  rw [Prod.mk.injEq]
  refine ⟨?_, rfl⟩
  congr 1
  apply List.map_congr_left
  intro r _
  rw [one_mul]

/- ### Helper: getD on a replicate of the default -/

theorem getD_replicate_self {α : Type} (n pt : Nat) (d : α) :
    (List.replicate n d).getD pt d = d := by
  rw [List.getD_eq_getElem?_getD, List.getElem?_replicate]
  split_ifs <;> rfl

/- ### C2: identical exponent assignment in the two combiners -/

/-- Claim C2: `combine_commitments` and `combine_evaluations` assign
`polyscale` exponents identically.  Both iterate over exactly the
evaluations with a non-empty commitment (`included`) and advance one
shared running power of `polyscale` per chunk, continuously across the
whole list.  `combine_commitments` appends, for the chunk at global
position `r` (in `chunksFlat`), the pair
`(rand_base * polyscale ^ r, chunk_point)` to the scalar/point lists;
`combine_evaluations` multiplies the value of that same global chunk
position (in `colsFlat`) by `polyscale ^ r`.  The hypothesis ties the
shapes together: each included table is non-empty, has the first
evaluation's outer length, and each of its rows has one value per chunk
of its commitment — so with two polynomials of 2 chunks each, the second
polynomial's first chunk is at global position 2 and receives
`polyscale ^ 2`, not `polyscale ^ 0`. -/
theorem combine_commitments_evaluations_agree {G F : Type} [Field F]
    (evs : List (Evaluation G F)) (scalars : List F) (points : List G) (ps rb : F)
    (hwf : ∀ e ∈ included evs, e.evaluations ≠ [] ∧
      e.evaluations.length = numEvals evs ∧
      ∀ row ∈ e.evaluations, row.length = e.commitment.elems.length) :
    combine_commitments evs scalars points ps rb =
      (scalars ++ (List.range (chunksFlat evs).length).map fun r => rb * ps ^ r,
       points ++ chunksFlat evs) ∧
    combine_evaluations evs ps =
      some ((List.range (numEvals evs)).map fun pt =>
        ∑ r ∈ Finset.range (chunksFlat evs).length,
          (colsFlat evs pt).getD r 0 * ps ^ r) := by
  constructor
  · exact combine_commitments_eq evs scalars points ps rb
  · have hyps : ∀ e ∈ included evs, e.evaluations ≠ [] ∧
        e.evaluations.length = (List.replicate (numEvals evs) (0 : F)).length ∧
        ∀ row ∈ e.evaluations, row.length = (e.evaluations.headD []).length := by
      intro e he
      obtain ⟨h1, h2, h3⟩ := hwf e he
      refine ⟨h1, by rw [List.length_replicate]; exact h2, fun row hrow => ?_⟩
      rw [h3 row hrow, h3 (e.evaluations.headD []) (headD_mem _ _ h1)]
    calc combine_evaluations evs ps
        = some ((List.range (List.replicate (numEvals evs) (0 : F)).length).map fun pt =>
            (List.replicate (numEvals evs) (0 : F)).getD pt 0 +
              ∑ r ∈ Finset.range
                  ((included evs).flatMap fun e => e.evaluations.getD pt []).length,
                ((included evs).flatMap fun e => e.evaluations.getD pt []).getD r 0 *
                  (1 * ps ^ r)) := by
          unfold combine_evaluations
          dsimp only
          rw [ce_outer_eq ps (included evs) (List.replicate (numEvals evs) (0 : F)) 1 hyps]
          rfl
      _ = some ((List.range (numEvals evs)).map fun pt =>
            ∑ r ∈ Finset.range (chunksFlat evs).length,
              (colsFlat evs pt).getD r 0 * ps ^ r) := by
          rw [Option.some_inj, List.length_replicate]
          apply List.map_congr_left
          intro pt hpt
          rw [List.mem_range] at hpt
          rw [getD_replicate_self, zero_add]
          have hflat : ((included evs).flatMap fun e => e.evaluations.getD pt []) =
              colsFlat evs pt := rfl
          have hlen2 : (colsFlat evs pt).length = (chunksFlat evs).length := by
            unfold colsFlat chunksFlat
            rw [List.length_flatMap, List.length_flatMap]
            congr 1
            apply List.map_congr_left
            intro e he
            obtain ⟨h1, h2, h3⟩ := hwf e he
            exact h3 _ (getD_mem _ _ _ (by rw [h2]; exact hpt))
          rw [hflat, hlen2]
          apply Finset.sum_congr rfl
          intro r _
          rw [one_mul]

/-- Witness for C2 on two two-chunk polynomials over `ZMod 101`
(`polyscale = 3`, `rand_base = 2`): the appended scalars are
`2·3⁰, 2·3¹, 2·3², 2·3³` — the second polynomial's first chunk gets
`3²` — and the combined evaluation is `1 + 2·3 + 3·3² + 4·3³ = 41`. -/
theorem combine_commitments_evaluations_agree_witness :
    combine_commitments
        [Evaluation.mk (PolyComm.new [(10 : ℤ), 20]) [[(1 : ZMod 101), 2]],
         Evaluation.mk (PolyComm.new [30, 40]) [[3, 4]]]
        [(99 : ZMod 101)] [(77 : ℤ)] 3 2 =
      ([99, 2, 6, 18, 54], [77, 10, 20, 30, 40]) ∧
    combine_evaluations
        [Evaluation.mk (PolyComm.new [(10 : ℤ), 20]) [[(1 : ZMod 101), 2]],
         Evaluation.mk (PolyComm.new [30, 40]) [[3, 4]]] (3 : ZMod 101) =
      some [41] := by
  have h := combine_commitments_evaluations_agree
    [Evaluation.mk (PolyComm.new [(10 : ℤ), 20]) [[(1 : ZMod 101), 2]],
     Evaluation.mk (PolyComm.new [30, 40]) [[3, 4]]]
    [(99 : ZMod 101)] [(77 : ℤ)] 3 2 (by decide)
  constructor
  · rw [h.1]
    decide
  · rw [h.2]
    decide

/- ### C5: ragged evaluation-point counts -/

/-- Claim C5, counterexample: a caller supplying mismatched
evaluation-point counts does NOT always get a silently truncated result:
when the second table has MORE points (2) than the first (1), the
`acc[eval_pt_idx]` write goes out of bounds and the function panics
(`none`) instead of truncating. -/
theorem combine_evaluations_truncation_counterexample :
    combine_evaluations
      [Evaluation.mk (PolyComm.new [(0 : ℤ)]) [[(5 : ZMod 101)]],
       Evaluation.mk (PolyComm.new [0]) [[7], [9]]] (3 : ZMod 101) = none := by
  decide

/-- Claim C5 (amended): with mismatched evaluation-point counts the
function does not fail only as long as every included table is non-empty,
has AT MOST the first element's point count, and has rows at least as
long as its first row; the result then has the first element's point
count (shorter tables contribute only their own points).  An included
table with MORE points than the first makes the function panic (see the
counterexample), rather than truncate. -/
theorem combine_evaluations_shape {G F : Type} [Field F]
    (evs : List (Evaluation G F)) (ps : F)
    (h : ∀ e ∈ included evs, e.evaluations ≠ [] ∧
      e.evaluations.length ≤ numEvals evs ∧
      ∀ row ∈ e.evaluations, (e.evaluations.headD []).length ≤ row.length) :
    ∃ acc, combine_evaluations evs ps = some acc ∧ acc.length = numEvals evs := by
  obtain ⟨accF, xiF, hfold, hlenF⟩ := ce_outer_some ps (included evs)
    (List.replicate (numEvals evs) (0 : F)) 1
    (fun e he => by
      obtain ⟨h1, h2, h3⟩ := h e he
      exact ⟨h1, by rw [List.length_replicate]; exact h2, h3⟩)
  refine ⟨accF, ?_, by rw [hlenF, List.length_replicate]⟩
  unfold combine_evaluations
  dsimp only
  rw [hfold]
  rfl

/-- Witness for C5's amended theorem: first table has 2 points, second
only 1 — the call succeeds and the result keeps the first table's
count. -/
theorem combine_evaluations_shape_witness :
    ∃ acc, combine_evaluations
        [Evaluation.mk (PolyComm.new [(0 : ℤ)]) [[(5 : ZMod 101)], [6]],
         Evaluation.mk (PolyComm.new [0]) [[7]]] (3 : ZMod 101) = some acc ∧
      acc.length = numEvals
        [Evaluation.mk (PolyComm.new [(0 : ℤ)]) [[(5 : ZMod 101)], [6]],
         Evaluation.mk (PolyComm.new [0]) [[7]]] :=
  combine_evaluations_shape _ 3 (by decide)

/- ### C6 part 1: b_poly as an explicit product -/

theorem pow_twos_length {F : Type} [Field F] (x : F) (m : Nat) :
    (pow_twos x m).length = m + 1 := by
  induction m with
  | zero => rfl
  | succ m ih =>
    show (pow_twos x m ++ _).length = _
    rw [List.length_append, ih]
    rfl

theorem pow_twos_getD {F : Type} [Field F] (x : F) (m : Nat) :
    ∀ j, j ≤ m → (pow_twos x m).getD j 0 = x ^ (2 ^ j) := by
  induction m with
  | zero =>
    intro j hj
    rw [Nat.le_zero.mp hj]
    show x = x ^ 2 ^ 0
    rw [pow_zero, pow_one]
  | succ m ih =>
    intro j hj
    show (pow_twos x m ++ _).getD j 0 = _
    rcases Nat.lt_or_ge j (m + 1) with h | h
    · rw [List.getD_append _ _ _ _ (by rw [pow_twos_length]; exact h)]
      exact ih j (by omega)
    · have hjm : j = m + 1 := by omega
      subst hjm
      rw [List.getD_append_right _ _ _ _ (by rw [pow_twos_length])]
      rw [pow_twos_length, Nat.sub_self, List.getD_cons_zero]
      rw [ih m (le_refl m), ← pow_add]
      congr 1
      have := pow_succ 2 m
      omega

theorem product_eq_prod {F : Type} [Field F] (xs : List F) : product xs = xs.prod := by
  unfold product
  rw [List.prod_eq_foldl]

/-- Claim C6, first half: `b_poly chals x` is the product over `i < k` of
`1 + chals[i] * x^(2^(k-1-i))`. -/
theorem b_poly_eq_product {F : Type} [Field F] (chals : List F) (x : F) :
    b_poly chals x = ∏ i ∈ Finset.range chals.length,
      (1 + chals.getD i 0 * x ^ 2 ^ (chals.length - 1 - i)) := by
  unfold b_poly
  dsimp only
  rw [product_eq_prod]
  have hmap : (List.range chals.length).map (fun i =>
        1 + chals.getD i 0 * (pow_twos x (chals.length - 1)).getD (chals.length - 1 - i) 0) =
      (List.range chals.length).map (fun i =>
        1 + chals.getD i 0 * x ^ 2 ^ (chals.length - 1 - i)) := by
    apply List.map_congr_left
    intro i hi
    rw [List.mem_range] at hi
    rw [pow_twos_getD x (chals.length - 1) (chals.length - 1 - i) (by omega)]
  rw [hmap]
  rfl

/- ### C6 part 2: the reference coefficient vector -/

theorem eval_polynomial_append {F : Type} [Field F] (a b : List F) (x : F) :
    eval_polynomial (a ++ b) x =
      eval_polynomial a x + x ^ a.length * eval_polynomial b x := by
  induction a with
  | nil => simp [eval_polynomial]
  | cons c cs ih =>
    show c + x * eval_polynomial (cs ++ b) x = _
    rw [ih]
    show _ = c + x * eval_polynomial cs x + x ^ (cs.length + 1) * _
    rw [pow_succ]
    ring

theorem eval_polynomial_map_mul {F : Type} [Field F] (c : F) (l : List F) (x : F) :
    eval_polynomial (l.map fun y => c * y) x = c * eval_polynomial l x := by
  induction l with
  | nil => simp [eval_polynomial]
  | cons a as ih =>
    show c * a + x * eval_polynomial (as.map fun y => c * y) x = _
    rw [ih]
    show _ = c * (a + x * eval_polynomial as x)
    ring

theorem bPolyCoeffsSpec_length {F : Type} [Field F] (chals : List F) :
    (bPolyCoeffsSpec chals).length = 2 ^ chals.length := by
  induction chals with
  | nil => rfl
  | cons c rest ih =>
    show (bPolyCoeffsSpec rest ++ (bPolyCoeffsSpec rest).map fun a => c * a).length = _
    rw [List.length_append, List.length_map, ih, List.length_cons, pow_succ]
    ring

theorem eval_bPolyCoeffsSpec {F : Type} [Field F] (chals : List F) (x : F) :
    eval_polynomial (bPolyCoeffsSpec chals) x =
      ∏ i ∈ Finset.range chals.length,
        (1 + chals.getD i 0 * x ^ 2 ^ (chals.length - 1 - i)) := by
  induction chals with
  | nil =>
    show (1 : F) + x * 0 = _
    simp
  | cons c rest ih =>
    show eval_polynomial
      (bPolyCoeffsSpec rest ++ (bPolyCoeffsSpec rest).map fun a => c * a) x = _
    rw [eval_polynomial_append, eval_polynomial_map_mul, ih, bPolyCoeffsSpec_length]
    have hprod : ∏ i ∈ Finset.range rest.length,
        (1 + (c :: rest).getD (i + 1) 0 * x ^ 2 ^ (rest.length + 1 - 1 - (i + 1))) =
        ∏ i ∈ Finset.range rest.length,
        (1 + rest.getD i 0 * x ^ 2 ^ (rest.length - 1 - i)) := by
      apply Finset.prod_congr rfl
      intro i _
      rw [List.getD_cons_succ,
        show rest.length + 1 - 1 - (i + 1) = rest.length - 1 - i from by omega]
    rw [show (c :: rest).length = rest.length + 1 from rfl, Finset.prod_range_succ', hprod,
      List.getD_cons_zero, show rest.length + 1 - 1 - 0 = rest.length from by omega]
    ring

/- ### C6 part 3: the imperative coefficient loop -/

theorem bpc_kpow {F : Type} [Field F] (chals : List F) (rounds : Nat) :
    ∀ (m i0 k0 pow0 : Nat) (s : List F),
    pow0 = 2 ^ k0 → 0 < i0 → i0 ≤ pow0 → pow0 < 2 * i0 →
    ∃ k1 pow1,
      ((List.range' i0 m).foldl (bpc_step chals rounds) ((s, k0, pow0))).2 = (k1, pow1) ∧
      pow1 = 2 ^ k1 ∧ i0 + m ≤ pow1 ∧ pow1 < 2 * (i0 + m) := by
  intro m
  induction m with
  | zero =>
    intro i0 k0 pow0 s h2k h0 hile hlt
    exact ⟨k0, pow0, rfl, h2k, by omega, by omega⟩
  | succ m ih =>
    intro i0 k0 pow0 s h2k h0 hile hlt
    rw [List.range'_succ, List.foldl_cons]
    by_cases hc : i0 = pow0
    · have hs2 : bpc_step chals rounds (s, k0, pow0) i0 =
          (s.set i0 (s.getD (i0 - (pow0 <<< 1) / 2) 0 *
            chals.getD (rounds - 1 - (k0 + 1 - 1)) 0), k0 + 1, pow0 <<< 1) := by
        unfold bpc_step
        dsimp only
        rw [if_pos hc]
      rw [hs2]
      have hsh : pow0 <<< 1 = 2 * pow0 := by
        rw [Nat.shiftLeft_eq]
        ring
      obtain ⟨k1, pow1, hf, he, hlo, hhi⟩ := ih (i0 + 1) (k0 + 1) (pow0 <<< 1) _
        (by rw [hsh, h2k, pow_succ]; ring) (by omega) (by omega) (by omega)
      exact ⟨k1, pow1, hf, he, by omega, by omega⟩
    · have hs2 : bpc_step chals rounds (s, k0, pow0) i0 =
          (s.set i0 (s.getD (i0 - (pow0 <<< 0) / 2) 0 *
            chals.getD (rounds - 1 - (k0 + 0 - 1)) 0), k0 + 0, pow0 <<< 0) := by
        unfold bpc_step
        dsimp only
        rw [if_neg hc]
      rw [hs2]
      have hsh : pow0 <<< 0 = pow0 := Nat.shiftLeft_zero
      obtain ⟨k1, pow1, hf, he, hlo, hhi⟩ := ih (i0 + 1) (k0 + 0) (pow0 <<< 0) _
        (by rw [hsh, Nat.add_zero]; exact h2k) (by omega) (by rw [hsh]; omega)
        (by rw [hsh]; omega)
      exact ⟨k1, pow1, hf, he, by omega, by omega⟩

theorem bpc_sim {F : Type} [Field F] (c : F) (rest : List F) :
    ∀ (m i0 k0 pow0 : Nat) (s t : List F),
    pow0 = 2 ^ k0 → 0 < i0 → i0 ≤ pow0 → pow0 < 2 * i0 →
    i0 + m ≤ 2 ^ rest.length → i0 + m ≤ s.length →
    (List.range' i0 m).foldl (bpc_step (c :: rest) (rest.length + 1)) ((s ++ t, k0, pow0)) =
      (((List.range' i0 m).foldl (bpc_step rest rest.length) ((s, k0, pow0))).1 ++ t,
       ((List.range' i0 m).foldl (bpc_step rest rest.length) ((s, k0, pow0))).2) := by
  intro m
  induction m with
  | zero =>
    intro i0 k0 pow0 s t _ _ _ _ _ _
    simp only [List.range'_zero, List.foldl_nil]
  | succ m ih =>
    intro i0 k0 pow0 s t h2k h0 hile hlt hbound hslen
    rw [List.range'_succ, List.foldl_cons, List.foldl_cons]
    have hi0s : i0 < s.length := by omega
    by_cases hc : i0 = pow0
    · have hk0n : k0 < rest.length := by
        have h1 : (2 : Nat) ^ k0 < 2 ^ rest.length := by omega
        exact (Nat.pow_lt_pow_iff_right (by omega)).mp h1
      have hidx : rest.length + 1 - 1 - (k0 + 1 - 1) =
          (rest.length - 1 - (k0 + 1 - 1)) + 1 := by omega
      have hL : bpc_step (c :: rest) (rest.length + 1) (s ++ t, k0, pow0) i0 =
          ((s.set i0 (s.getD (i0 - (pow0 <<< 1) / 2) 0 *
            rest.getD (rest.length - 1 - (k0 + 1 - 1)) 0)) ++ t, k0 + 1, pow0 <<< 1) := by
        unfold bpc_step
        dsimp only
        rw [if_pos hc, List.set_append_left _ _ hi0s,
          List.getD_append _ _ _ _ (by omega), hidx, List.getD_cons_succ]
      have hR : bpc_step rest rest.length (s, k0, pow0) i0 =
          (s.set i0 (s.getD (i0 - (pow0 <<< 1) / 2) 0 *
            rest.getD (rest.length - 1 - (k0 + 1 - 1)) 0), k0 + 1, pow0 <<< 1) := by
        unfold bpc_step
        dsimp only
        rw [if_pos hc]
      rw [hL, hR]
      have hsh : pow0 <<< 1 = 2 * pow0 := by
        rw [Nat.shiftLeft_eq]
        ring
      exact ih (i0 + 1) (k0 + 1) (pow0 <<< 1) _ t
        (by rw [hsh, h2k, pow_succ]; ring) (by omega) (by omega) (by omega) (by omega)
        (by rw [List.length_set]; omega)
    · have hk0pos : 0 < k0 := by
        rcases Nat.eq_zero_or_pos k0 with h | h
        · subst h
          rw [pow_zero] at h2k
          omega
        · exact h
      have hk0n : k0 ≤ rest.length := by
        have h1 : (2 : Nat) ^ k0 < 2 ^ (rest.length + 1) := by
          have h2 : (2 : Nat) ^ (rest.length + 1) = 2 * 2 ^ rest.length := by
            rw [pow_succ]
            ring
          omega
        have := (Nat.pow_lt_pow_iff_right (a := 2) (by omega)).mp h1
        omega
      have hidx : rest.length + 1 - 1 - (k0 + 0 - 1) =
          (rest.length - 1 - (k0 + 0 - 1)) + 1 := by omega
      have hL : bpc_step (c :: rest) (rest.length + 1) (s ++ t, k0, pow0) i0 =
          ((s.set i0 (s.getD (i0 - (pow0 <<< 0) / 2) 0 *
            rest.getD (rest.length - 1 - (k0 + 0 - 1)) 0)) ++ t, k0 + 0, pow0 <<< 0) := by
        unfold bpc_step
        dsimp only
        rw [if_neg hc, List.set_append_left _ _ hi0s,
          List.getD_append _ _ _ _ (by omega), hidx, List.getD_cons_succ]
      have hR : bpc_step rest rest.length (s, k0, pow0) i0 =
          (s.set i0 (s.getD (i0 - (pow0 <<< 0) / 2) 0 *
            rest.getD (rest.length - 1 - (k0 + 0 - 1)) 0), k0 + 0, pow0 <<< 0) := by
        unfold bpc_step
        dsimp only
        rw [if_neg hc]
      rw [hL, hR]
      have hsh : pow0 <<< 0 = pow0 := Nat.shiftLeft_zero
      exact ih (i0 + 1) (k0 + 0) (pow0 <<< 0) _ t
        (by rw [hsh, Nat.add_zero]; exact h2k) (by omega) (by rw [hsh]; omega)
        (by rw [hsh]; omega) (by omega) (by rw [List.length_set]; omega)

theorem bpc_phase2 {F : Type} [Field F] (c : F) (rest : List F) (S : List F)
    (hS : S.length = 2 ^ rest.length) :
    ∀ (m a : Nat), a + m = 2 ^ rest.length → 0 < a →
    (List.range' (2 ^ rest.length + a) m).foldl (bpc_step (c :: rest) (rest.length + 1))
      ((S ++ ((S.take a).map (fun y => c * y) ++ List.replicate m 1),
        rest.length + 1, 2 ^ (rest.length + 1))) =
      (S ++ S.map (fun y => c * y), rest.length + 1, 2 ^ (rest.length + 1)) := by
  intro m
  induction m with
  | zero =>
    intro a ha _
    have haS : a = S.length := by omega
    simp only [List.range'_zero, List.foldl_nil, List.replicate_zero, List.append_nil,
      haS, List.take_length]
  | succ m ih =>
    intro a ha hapos
    have h2 : (2 : Nat) ^ (rest.length + 1) = 2 * 2 ^ rest.length := by
      rw [pow_succ]
      ring
    have hc : ¬ (2 ^ rest.length + a = 2 ^ (rest.length + 1)) := by omega
    have haS2 : a < S.length := by omega
    have hstep : bpc_step (c :: rest) (rest.length + 1)
        (S ++ ((S.take a).map (fun y => c * y) ++ List.replicate (m + 1) 1),
         rest.length + 1, 2 ^ (rest.length + 1)) (2 ^ rest.length + a) =
        (S ++ ((S.take a).map (fun y => c * y) ++
          (S.getD a 0 * c :: List.replicate m 1)),
         rest.length + 1, 2 ^ (rest.length + 1)) := by
      unfold bpc_step
      dsimp only
      rw [if_neg hc, Nat.add_zero, Nat.shiftLeft_zero]
      rw [show rest.length + 1 - 1 - (rest.length + 1 - 1) = 0 from by omega,
        List.getD_cons_zero]
      rw [show 2 ^ rest.length + a - 2 ^ (rest.length + 1) / 2 = a from by omega]
      rw [List.getD_append _ _ _ _ (by omega)]
      rw [List.set_append_right _ _ (show S.length ≤ 2 ^ rest.length + a from by omega)]
      rw [show 2 ^ rest.length + a - S.length = a from by omega]
      rw [List.set_append_right _ _
        (show ((S.take a).map (fun y => c * y)).length ≤ a from by
          rw [List.length_map, List.length_take]
          omega)]
      rw [show a - ((S.take a).map (fun y => c * y)).length = 0 from by
        rw [List.length_map, List.length_take]
        omega]
      rw [List.replicate_succ, List.set_cons_zero]
    rw [List.range'_succ, List.foldl_cons, hstep]
    have hlist : (S.take (a + 1)).map (fun y => c * y) ++ List.replicate m 1 =
        (S.take a).map (fun y => c * y) ++ (S.getD a 0 * c :: List.replicate m 1) := by
      have htake : S.take (a + 1) = S.take a ++ [S.getD a 0] := by
        rw [List.take_succ, List.getElem?_eq_getElem haS2,
          List.getD_eq_getElem S 0 haS2]
        rfl
      rw [htake, List.map_append, List.append_assoc]
      simp only [List.map_cons, List.map_nil, List.singleton_append]
      rw [mul_comm c (S.getD a 0)]
    rw [← hlist]
    exact ih (a + 1) (by omega) (by omega)

theorem b_poly_coefficients_eq_spec {F : Type} [Field F] (chals : List F) :
    b_poly_coefficients chals = bPolyCoeffsSpec chals := by
  induction chals with
  | nil => rfl
  | cons c rest ih =>
    have hpos : 0 < 2 ^ rest.length := Nat.two_pow_pos rest.length
    have h2 : (2 : Nat) ^ (rest.length + 1) = 2 * 2 ^ rest.length := by
      rw [pow_succ]
      ring
    have hslen : (bPolyCoeffsSpec rest).length = 2 ^ rest.length :=
      bPolyCoeffsSpec_length rest
    -- the rest-side loop: value from the induction hypothesis, (k, pow) from bpc_kpow
    have hX : (List.range' 1 (2 ^ rest.length - 1)).foldl (bpc_step rest rest.length)
        (List.replicate (2 ^ rest.length) 1, 0, 1) =
        (bPolyCoeffsSpec rest, rest.length, 2 ^ rest.length) := by
      have hX1 : ((List.range' 1 (2 ^ rest.length - 1)).foldl (bpc_step rest rest.length)
          (List.replicate (2 ^ rest.length) 1, 0, 1)).1 = bPolyCoeffsSpec rest := by
        rw [← ih]
        unfold b_poly_coefficients
        dsimp only
        rw [Nat.one_shiftLeft]
      have hX2 : ((List.range' 1 (2 ^ rest.length - 1)).foldl (bpc_step rest rest.length)
          (List.replicate (2 ^ rest.length) 1, 0, 1)).2 = (rest.length, 2 ^ rest.length) := by
        obtain ⟨k1, pow1, hf, he, hlo, hhi⟩ := bpc_kpow rest rest.length
          (2 ^ rest.length - 1) 1 0 1 (List.replicate (2 ^ rest.length) 1)
          (by rw [pow_zero]) (by omega) (by omega) (by omega)
        have hklow : rest.length ≤ k1 := by
          have hle : (2 : Nat) ^ rest.length ≤ 2 ^ k1 := by omega
          exact (Nat.pow_le_pow_iff_right (by omega)).mp hle
        have hkhi : k1 < rest.length + 1 := by
          have hlt : (2 : Nat) ^ k1 < 2 ^ (rest.length + 1) := by omega
          exact (Nat.pow_lt_pow_iff_right (by omega)).mp hlt
        have hk1 : k1 = rest.length := by omega
        rw [hf, hk1]
        rw [hk1] at he
        rw [he]
      exact Prod.ext (by rw [hX1]) (by rw [hX2])
    have hsplit : List.range' (2 ^ rest.length) (2 ^ rest.length) =
        2 ^ rest.length :: List.range' (2 ^ rest.length + 1) (2 ^ rest.length - 1) := by
      have h := List.range'_succ (2 ^ rest.length) (2 ^ rest.length - 1) 1
      rw [show 2 ^ rest.length - 1 + 1 = 2 ^ rest.length from by omega] at h
      exact h
    have htake1 : ((bPolyCoeffsSpec rest).take 1).map (fun y => c * y) =
        [(bPolyCoeffsSpec rest).getD 0 0 * c] := by
      have h01 : 0 < (bPolyCoeffsSpec rest).length := by omega
      have ht : (bPolyCoeffsSpec rest).take 1 = [(bPolyCoeffsSpec rest).getD 0 0] := by
        rw [show (1 : Nat) = 0 + 1 from rfl, List.take_succ, List.take_zero,
          List.getElem?_eq_getElem h01, List.getD_eq_getElem _ 0 h01]
        rfl
      rw [ht]
      simp only [List.map_cons, List.map_nil]
      rw [mul_comm]
    have hstep1 : bpc_step (c :: rest) (rest.length + 1)
        (bPolyCoeffsSpec rest ++ List.replicate (2 ^ rest.length) 1,
         rest.length, 2 ^ rest.length) (2 ^ rest.length) =
        (bPolyCoeffsSpec rest ++ (((bPolyCoeffsSpec rest).take 1).map (fun y => c * y) ++
          List.replicate (2 ^ rest.length - 1) 1),
         rest.length + 1, 2 ^ (rest.length + 1)) := by
      unfold bpc_step
      dsimp only
      rw [if_pos rfl]
      rw [show (2 : Nat) ^ rest.length <<< 1 = 2 ^ (rest.length + 1) from by
        rw [Nat.shiftLeft_eq]
        ring]
      rw [show rest.length + 1 - 1 - (rest.length + 1 - 1) = 0 from by omega,
        List.getD_cons_zero]
      rw [show 2 ^ rest.length - 2 ^ (rest.length + 1) / 2 = 0 from by omega]
      rw [List.getD_append _ _ _ _ (by omega)]
      rw [List.set_append_right _ _
        (show (bPolyCoeffsSpec rest).length ≤ 2 ^ rest.length from by omega)]
      rw [show 2 ^ rest.length - (bPolyCoeffsSpec rest).length = 0 from by omega]
      rw [show List.replicate (2 ^ rest.length) (1 : F) =
          1 :: List.replicate (2 ^ rest.length - 1) 1 from by
        conv_lhs => rw [show (2 : Nat) ^ rest.length = (2 ^ rest.length - 1) + 1 from by omega]
        rw [List.replicate_succ]]
      rw [List.set_cons_zero, htake1, List.singleton_append]
    unfold b_poly_coefficients
    dsimp only
    rw [List.length_cons, Nat.one_shiftLeft]
    rw [show (2 : Nat) ^ (rest.length + 1) - 1 = 2 ^ rest.length + (2 ^ rest.length - 1)
      from by omega]
    rw [← List.range'_append 1 (2 ^ rest.length - 1) (2 ^ rest.length) 1]
    rw [show 1 + 1 * (2 ^ rest.length - 1) = 2 ^ rest.length from by omega]
    rw [show (2 : Nat) ^ (rest.length + 1) = 2 ^ rest.length + 2 ^ rest.length from by omega]
    rw [List.replicate_add, List.foldl_append]
    rw [bpc_sim c rest (2 ^ rest.length - 1) 1 0 1 (List.replicate (2 ^ rest.length) 1)
      (List.replicate (2 ^ rest.length) 1) (by rw [pow_zero]) (by omega) (by omega)
      (by omega) (by omega) (by rw [List.length_replicate]; omega)]
    rw [hX]
    dsimp only
    rw [hsplit, List.foldl_cons, hstep1]
    rw [bpc_phase2 c rest (bPolyCoeffsSpec rest) hslen (2 ^ rest.length - 1) 1
      (by omega) (by omega)]
    rfl

/-- Claim C6: for every challenge list `chals` of length `k` and every
`x`, `b_poly chals x` is the product over `i < k` of
`1 + chals[i] * x^(2^(k-1-i))`; `b_poly_coefficients chals` is a vector
of length `2^k` whose Horner evaluation (`eval_polynomial`) at `x`
equals `b_poly chals x` — it is the coefficient vector of that same
polynomial — and for empty `chals` the coefficient vector is `[1]`. -/
theorem b_poly_and_coefficients_spec {F : Type} [Field F] (chals : List F) (x : F) :
    b_poly chals x = ∏ i ∈ Finset.range chals.length,
      (1 + chals.getD i 0 * x ^ 2 ^ (chals.length - 1 - i)) ∧
    (b_poly_coefficients chals).length = 2 ^ chals.length ∧
    eval_polynomial (b_poly_coefficients chals) x = b_poly chals x ∧
    b_poly_coefficients ([] : List F) = [1] := by
  refine ⟨b_poly_eq_product chals x, ?_, ?_, rfl⟩
  · rw [b_poly_coefficients_eq_spec, bPolyCoeffsSpec_length]
  · rw [b_poly_coefficients_eq_spec, eval_bPolyCoeffsSpec, b_poly_eq_product]

end Commitment
